import Mathlib

/-!
Formal model of the MimbleWimble (MWEB) transaction codec found in
`blockdata/mimblewimble.rs`.  The repository contains two copies of this
module (one under `src/bitcoin`, one under `src/src`); they are identical
except for the helper `skip` and for `OutputMessage::consensus_encode`,
so those two are modelled twice (`skip` / `skipSrc`,
`OutputMessage.consensus_encode` / `OutputMessage.consensus_encodeSrc`).

A byte stream is a `List UInt8` consumed from the front.  Every fallible
operation returns a `DResult`:
  * `.ok v rest` — the Rust function returned `Ok(v)` leaving `rest` unread;
  * `.err e`     — the Rust function returned `Err(e)`;
  * `.panic`     — the Rust code terminated abruptly (`unwrap` / `expect`).

Elliptic-curve validity of a compressed public key is an external
primitive (the secp256k1 crate); it is taken as an explicit boolean
parameter `isV` wherever the source calls `PublicKey::from_slice`.
-/

inductive DecodeErr : Type where
  | truncated : DecodeErr
  | invalidPublicKey : DecodeErr
deriving DecidableEq

inductive DResult (α : Type) : Type where
  | ok : α → List UInt8 → DResult α
  | err : DecodeErr → DResult α
  | panic : DResult α
deriving DecidableEq

/-- Sequencing with `?`: an `Err` propagates, a panic propagates. -/
def DResult.bind {α β : Type} (x : DResult α) (f : α → List UInt8 → DResult β) : DResult β :=
  match x with
  | .ok a rest => f a rest
  | .err e => .err e
  | .panic => .panic

/-- Sequencing with `.expect("read error")`: any `Err` becomes a panic. -/
def DResult.expectThen {α β : Type} (x : DResult α) (f : α → List UInt8 → DResult β) :
    DResult β :=
  match x with
  | .ok a rest => f a rest
  | .err _ => .panic
  | .panic => .panic

/-- `Result::map` on the decoded value, keeping the unread remainder. -/
def DResult.mapVal {α β : Type} (g : α → β) : DResult α → DResult β
  | .ok a rest => .ok (g a) rest
  | .err e => .err e
  | .panic => .panic

/-- `Option::unwrap` inside a decoding context: `None` is a panic. -/
def Option.unwrapThen {α β : Type} (o : Option α) (f : α → DResult β) : DResult β :=
  match o with
  | some a => f a
  | none => .panic

/-- `u8::consensus_decode`: read exactly one byte or fail on a short read. -/
def readByte : List UInt8 → DResult UInt8
  | [] => .err .truncated
  | b :: rest => .ok b rest

/-- `[u8; N]::consensus_decode`: read exactly `n` bytes or fail on a short read. -/
def readBytes (n : Nat) (s : List UInt8) : DResult (List UInt8) :=
  if n ≤ s.length then .ok (s.take n) (s.drop n) else .err .truncated

/-- Value of a little-endian byte string. -/
def leNat : List UInt8 → Nat
  | [] => 0
  | b :: rest => b.toNat + 256 * leNat rest

/-- The `k` little-endian bytes of `v`. -/
def leBytes : Nat → Nat → List UInt8
  | 0, _ => []
  | k + 1, v => UInt8.ofNat (v % 256) :: leBytes k (v / 256)

/-- Modelled from the spec: the external VarInt primitive
(`decode_varint(stream) -> u64`), the standard Bitcoin variable-length
integer: one tag byte below 0xFD holds the value directly, the tags
0xFD/0xFE/0xFF announce a 2/4/8-byte little-endian payload.  It fails
only on a short read. -/
def decodeVarInt : List UInt8 → DResult Nat
  | [] => .err .truncated
  | b :: rest =>
    if b.toNat < 0xFD then .ok b.toNat rest
    else if b.toNat = 0xFD then
      (readBytes 2 rest).bind fun bs r => .ok (leNat bs) r
    else if b.toNat = 0xFE then
      (readBytes 4 rest).bind fun bs r => .ok (leNat bs) r
    else
      (readBytes 8 rest).bind fun bs r => .ok (leNat bs) r

/-- Modelled from the spec: the external VarInt encoder
(`encode_varint(u64, writer)`), inverse of `decodeVarInt`. -/
def encodeVarInt (v : Nat) : List UInt8 :=
  if v < 0xFD then [UInt8.ofNat v]
  else if v < 0x10000 then UInt8.ofNat 0xFD :: leBytes 2 v
  else if v < 0x100000000 then UInt8.ofNat 0xFE :: leBytes 4 v
  else UInt8.ofNat 0xFF :: leBytes 8 v

/-- `u64::consensus_decode`: 8 little-endian bytes. -/
def decodeU64 (s : List UInt8) : DResult Nat :=
  (readBytes 8 s).bind fun bs r => .ok (leNat bs) r

/-- `u64::consensus_encode`: 8 little-endian bytes. -/
def encodeU64le (v : Nat) : List UInt8 := leBytes 8 v

/-- Modelled from the spec: `Vec<u8>::consensus_decode`, an external
primitive reading a length-prefixed blob (VarInt length, then that many
bytes), failing on a short read. -/
def decodeVecU8 (s : List UInt8) : DResult (List UInt8) :=
  (decodeVarInt s).bind fun len r => readBytes len r

/-- Modelled from the spec: `Vec<u8>::consensus_encode`, the external
length-prefixed blob encoder. -/
def encodeVecU8 (d : List UInt8) : List UInt8 :=
  encodeVarInt d.length ++ d

/-- Modelled from the spec: the external script-decoding primitive
(`ScriptBuf::consensus_decode` / `Script::consensus_decode`), a
length-prefixed byte vector. -/
def decodeScript (s : List UInt8) : DResult (List UInt8) :=
  (decodeVarInt s).bind fun len r => readBytes len r

/-- Compressed public key, kept as its 33 serialized bytes.  In the Rust
source this is `secp256k1::PublicKey`, whose smart constructor
`from_slice` only accepts valid curve points; here validity is the
external predicate `isV` and is carried as a hypothesis where needed. -/
structure PublicKey : Type where
  bytes : List UInt8
deriving DecidableEq

/-- `PublicKey::from_slice`: accepts exactly the well-sized byte strings
the external validity predicate accepts. -/
def PublicKey.from_slice (isV : List UInt8 → Bool) (data : List UInt8) : Option PublicKey :=
  if data.length = 33 ∧ isV data = true then some ⟨data⟩ else none

/-- `PublicKey::serialize`: the compressed 33-byte form. -/
def PublicKey.serialize (k : PublicKey) : List UInt8 := k.bytes

/-- `OutputFeatures::StandardFieldsFeatureBit`. -/
def StandardFieldsFeatureBit : UInt8 := 0x01

/-- `OutputFeatures::ExtraDataFeatureBit`. -/
def ExtraDataFeatureBit : UInt8 := 0x02

structure OutputMessageStandardFields : Type where
  key_exchange_pubkey : PublicKey
  view_tag : UInt8
  masked_value : Nat
  masked_nonce : List UInt8
deriving DecidableEq

structure OutputMessage : Type where
  features : UInt8
  standard_fields : Option OutputMessageStandardFields
  extra_data : List UInt8
deriving DecidableEq

structure Output : Type where
  commitment : List UInt8
  sender_public_key : PublicKey
  receiver_public_key : PublicKey
  message : OutputMessage
  range_proof : List UInt8
  signature : List UInt8
deriving DecidableEq

structure Input : Type where
  output_id : List UInt8
deriving DecidableEq

structure TxBody : Type where
  inputs : List Input
  outputs : List Output
deriving DecidableEq

structure Transaction : Type where
  body : TxBody
deriving DecidableEq

/-- `skip` of the `src/bitcoin` copy.  The Rust body is
`let mut buf = Vec::with_capacity(num_bytes); let _ = stream.read_exact(&mut buf.as_mut_slice());`.
`Vec::with_capacity` yields a vector of length zero, so `as_mut_slice`
is the empty slice, `read_exact` fills zero bytes and always succeeds,
and the discarded result is `Ok`: the stream is left untouched. -/
def skip (stream : List UInt8) (numBytes : Nat) : List UInt8 :=
  let _ := numBytes
  stream

/-- `skip` of the `src/src` copy:
`io::copy(&mut stream.take(num_bytes), &mut io::sink()).expect(..)`.
`Read::take` caps the copy at `num_bytes`; copying from an in-memory
reader cannot fail, and reaching end-of-stream early just copies fewer
bytes, so this drops up to `num_bytes` bytes and never fails. -/
def skipSrc (stream : List UInt8) (numBytes : Nat) : List UInt8 :=
  stream.drop numBytes

/-- Loop body of `skip_amount`, with the remaining iteration count made
explicit (the Rust `for _ in 0..10` runs at most 10 iterations). -/
def skipAmountLoop : Nat → List UInt8 → DResult Unit
  | 0, s => .ok () s
  | n + 1, s =>
    (readByte s).expectThen fun b s =>
      if b &&& 0x80 = 0 then .ok () s else skipAmountLoop n s

/-- `skip_amount` (identical in both copies): read up to 10 bytes, stop
after the first byte whose high bit is clear; each read uses
`.expect("read error")`. -/
def skip_amount (stream : List UInt8) : DResult Unit :=
  skipAmountLoop 10 stream

/-- `read_array_len` (identical in both copies):
`VarInt::consensus_decode(stream).expect("read error").0`. -/
def read_array_len (stream : List UInt8) : DResult Nat :=
  (decodeVarInt stream).expectThen fun n s => .ok n s

/-- `skip_kernel` of the `src/bitcoin` copy (uses the no-op `skip`). -/
def skip_kernel (stream : List UInt8) : DResult Unit :=
  (readByte stream).expectThen fun features stream =>
  (if features &&& 1 ≠ 0 then skip_amount stream else DResult.ok () stream).bind fun _ stream =>
  (if features &&& 2 ≠ 0 then skip_amount stream else DResult.ok () stream).bind fun _ stream =>
  (if features &&& 4 ≠ 0 then
      (skip_amount stream).bind fun _ stream =>
      (decodeScript stream).expectThen fun _ stream => .ok () stream
    else DResult.ok () stream).bind fun _ stream =>
  (if features &&& 8 ≠ 0 then DResult.ok () (skip stream 4) else DResult.ok () stream).bind fun _ stream =>
  (if features &&& 16 ≠ 0 then DResult.ok () (skip stream 33) else DResult.ok () stream).bind fun _ stream =>
  (if features &&& 32 ≠ 0 then
      (read_array_len stream).bind fun len stream => DResult.ok () (skip stream len)
    else DResult.ok () stream).bind fun _ stream =>
  .ok () (skip (skip stream 33) 64)

/-- `skip_kernel` of the `src/src` copy (uses the byte-dropping `skipSrc`). -/
def skip_kernelSrc (stream : List UInt8) : DResult Unit :=
  (readByte stream).expectThen fun features stream =>
  (if features &&& 1 ≠ 0 then skip_amount stream else DResult.ok () stream).bind fun _ stream =>
  (if features &&& 2 ≠ 0 then skip_amount stream else DResult.ok () stream).bind fun _ stream =>
  (if features &&& 4 ≠ 0 then
      (skip_amount stream).bind fun _ stream =>
      (decodeScript stream).expectThen fun _ stream => .ok () stream
    else DResult.ok () stream).bind fun _ stream =>
  (if features &&& 8 ≠ 0 then DResult.ok () (skipSrc stream 4) else DResult.ok () stream).bind fun _ stream =>
  (if features &&& 16 ≠ 0 then DResult.ok () (skipSrc stream 33) else DResult.ok () stream).bind fun _ stream =>
  (if features &&& 32 ≠ 0 then
      (read_array_len stream).bind fun len stream => DResult.ok () (skipSrc stream len)
    else DResult.ok () stream).bind fun _ stream =>
  .ok () (skipSrc (skipSrc stream 33) 64)

/-- `Input::consensus_decode` (the `src/bitcoin` copy, whose `skip` is a
no-op; the `src/src` copy differs only in dropping the skipped bytes). -/
def Input.consensus_decode (d : List UInt8) : DResult Input :=
  (readByte d).bind fun features d =>
  (readBytes 32 d).bind fun output_id d =>
  let d := skip d 33
  let d := skip d 33
  (if features &&& 1 ≠ 0 then DResult.ok () (skip d 33) else DResult.ok () d).bind fun _ d =>
  (if features &&& 2 ≠ 0 then
      (read_array_len d).bind fun len d => DResult.ok () (skip d len)
    else DResult.ok () d).bind fun _ d =>
  .ok { output_id := output_id } (skip d 64)

/-- Element loop of `Vec<Input>::consensus_decode`. -/
def decodeInputList : Nat → List UInt8 → DResult (List Input)
  | 0, d => .ok [] d
  | n + 1, d =>
    (Input.consensus_decode d).bind fun i d =>
    (decodeInputList n d).bind fun rest d => .ok (i :: rest) d

/-- `Vec<Input>::consensus_decode`: VarInt length, then that many inputs.
The Rust allocates `Vec::with_capacity(len)` before decoding any element;
that allocation is modelled separately by `vecInputAllocatedCapacity`. -/
def VecInput.consensus_decode (stream : List UInt8) : DResult (List Input) :=
  (decodeVarInt stream).bind fun len d => decodeInputList len d

/-- The capacity argument passed to `Vec::with_capacity` by
`Vec<Input>::consensus_decode`, executed right after the VarInt length is
read and before any element is decoded or any remaining-size check. -/
def vecInputAllocatedCapacity (stream : List UInt8) : Option Nat :=
  match decodeVarInt stream with
  | .ok len _ => some len
  | _ => none

/-- `OutputMessage::consensus_decode` (identical in both copies). -/
def OutputMessage.consensus_decode (isV : List UInt8 → Bool) (d : List UInt8) :
    DResult OutputMessage :=
  (readByte d).bind fun features d =>
  (if features &&& StandardFieldsFeatureBit ≠ 0 then
      (readBytes 33 d).bind fun pubkey_bytes d =>
      (PublicKey.from_slice isV pubkey_bytes).unwrapThen fun key_exchange_pubkey =>
      (readByte d).bind fun view_tag d =>
      (decodeU64 d).bind fun masked_value d =>
      (readBytes 16 d).bind fun masked_nonce d =>
      .ok (some { key_exchange_pubkey := key_exchange_pubkey, view_tag := view_tag,
                  masked_value := masked_value, masked_nonce := masked_nonce }) d
    else .ok none d).bind fun standard_fields d =>
  (if features &&& ExtraDataFeatureBit ≠ 0 then decodeVecU8 d
    else .ok [] d).bind fun extra_data d =>
  .ok { features := features, standard_fields := standard_fields, extra_data := extra_data } d

/-- `OutputMessage::consensus_encode` of the `src/bitcoin` copy: the
trailing `extra_data` is written only when the extra-data feature bit is
set. -/
def OutputMessage.consensus_encode (m : OutputMessage) : List UInt8 :=
  [m.features]
  ++ (match m.standard_fields with
      | some fields =>
        fields.key_exchange_pubkey.serialize ++ [fields.view_tag]
          ++ encodeU64le fields.masked_value ++ fields.masked_nonce
      | none => [])
  ++ (if m.features &&& ExtraDataFeatureBit ≠ 0 then encodeVecU8 m.extra_data else [])

/-- `OutputMessage::consensus_encode` of the `src/src` copy: the trailing
`extra_data` is written unconditionally (always length-prefixed). -/
def OutputMessage.consensus_encodeSrc (m : OutputMessage) : List UInt8 :=
  [m.features]
  ++ (match m.standard_fields with
      | some fields =>
        fields.key_exchange_pubkey.serialize ++ [fields.view_tag]
          ++ encodeU64le fields.masked_value ++ fields.masked_nonce
      | none => [])
  ++ encodeVecU8 m.extra_data

/-- `Output::consensus_decode` (identical in both copies); the two
public-key fields go through `PublicKey::from_slice(..).unwrap()`. -/
def Output.consensus_decode (isV : List UInt8 → Bool) (d : List UInt8) : DResult Output :=
  (readBytes 33 d).bind fun commitment d =>
  (readBytes 33 d).bind fun sender_pubkey_bytes d =>
  (PublicKey.from_slice isV sender_pubkey_bytes).unwrapThen fun sender_public_key =>
  (readBytes 33 d).bind fun receiver_pubkey_bytes d =>
  (PublicKey.from_slice isV receiver_pubkey_bytes).unwrapThen fun receiver_public_key =>
  (OutputMessage.consensus_decode isV d).bind fun message d =>
  (readBytes 675 d).bind fun range_proof d =>
  (readBytes 64 d).bind fun signature d =>
  .ok { commitment := commitment, sender_public_key := sender_public_key,
        receiver_public_key := receiver_public_key, message := message,
        range_proof := range_proof, signature := signature } d

/-- `Output::consensus_encode` (identical in both copies apart from the
message encoder; this one uses the `src/bitcoin` message encoder). -/
def Output.consensus_encode (o : Output) : List UInt8 :=
  o.commitment ++ o.sender_public_key.serialize ++ o.receiver_public_key.serialize
    ++ o.message.consensus_encode ++ o.range_proof ++ o.signature

/-- Element loop of `Vec<Output>::consensus_decode`. -/
def decodeOutputList (isV : List UInt8 → Bool) : Nat → List UInt8 → DResult (List Output)
  | 0, d => .ok [] d
  | n + 1, d =>
    (Output.consensus_decode isV d).bind fun o d =>
    (decodeOutputList isV n d).bind fun rest d => .ok (o :: rest) d

/-- `Vec<Output>::consensus_decode`: VarInt length, then that many outputs. -/
def VecOutput.consensus_decode (isV : List UInt8 → Bool) (stream : List UInt8) :
    DResult (List Output) :=
  (decodeVarInt stream).bind fun len d => decodeOutputList isV len d

/-- Kernel loop of `TxBody::consensus_decode` (the `src/bitcoin` copy,
whose `skip_kernel` uses the no-op `skip`). -/
def skipKernels : Nat → List UInt8 → DResult Unit
  | 0, d => .ok () d
  | n + 1, d => (skip_kernel d).bind fun _ d => skipKernels n d

/-- `TxBody::consensus_decode` (the `src/bitcoin` copy). -/
def TxBody.consensus_decode (isV : List UInt8 → Bool) (d : List UInt8) : DResult TxBody :=
  (VecInput.consensus_decode d).bind fun inputs d =>
  (VecOutput.consensus_decode isV d).bind fun outputs d =>
  (read_array_len d).bind fun n_kernels d =>
  (skipKernels n_kernels d).bind fun _ d =>
  .ok { inputs := inputs, outputs := outputs } d

/-- `Transaction::consensus_decode` (the `src/bitcoin` copy):
`skip(d, 2 * 32)` for the two offsets, then the body. -/
def Transaction.consensus_decode (isV : List UInt8 → Bool) (d : List UInt8) :
    DResult Transaction :=
  (TxBody.consensus_decode isV (skip d (2 * 32))).mapVal fun body => { body := body }

/-- Concrete stand-in for the external curve-validity predicate, used to
instantiate the `isV` parameter in closed statements: it accepts exactly
one 33-byte string. -/
def pkOracle (bs : List UInt8) : Bool :=
  decide (bs = List.replicate 33 2)

/-- Number of bytes a VarInt read starting at `s` requires: one tag byte,
plus the payload announced by the tag. -/
def varIntRequiredLen (s : List UInt8) : Nat :=
  match s with
  | [] => 1
  | b :: _ =>
    if b.toNat < 0xFD then 1 else if b.toNat = 0xFD then 3 else if b.toNat = 0xFE then 5 else 9

/-- Number of bytes the wire layout of one `Input` requires for the
features byte found at the head of `s`, following the claimed layout:
features(1) + output_id(32) + commitment(33) + output pubkey(33)
+ input pubkey(33) if bit 0 + VarInt length and that many extra-data
bytes if bit 1 + signature(64).  The fixed part sums to 163. -/
def inputRequiredLen (s : List UInt8) : Nat :=
  match s with
  | [] => 1
  | f :: _ =>
    163 + (if f &&& 1 ≠ 0 then 33 else 0)
      + (if f &&& 2 ≠ 0 then
          varIntRequiredLen (s.drop 33)
            + (match decodeVarInt (s.drop 33) with
               | .ok len _ => len
               | _ => 0)
        else 0)

/-- Byte strings that the continuation-amount reader consumes whole: at
most 10 bytes, every byte but the last with the high bit set, and either
the last byte has the high bit clear or all 10 bytes have it set. -/
def IsAmountBytes (a : List UInt8) : Prop :=
  (∃ init b, a = init ++ [b] ∧ init.length ≤ 9 ∧ (∀ x ∈ init, x &&& 0x80 ≠ 0)
     ∧ b &&& 0x80 = 0)
  ∨ (a.length = 10 ∧ ∀ x ∈ a, x &&& 0x80 ≠ 0)

/-- Written from claim C3's wording, for comparison with the source:
the claimed pegout list is a VarInt entry count followed by, per entry,
one continuation-encoded amount and one script value. -/
def skipPegoutListClaim : Nat → List UInt8 → DResult Unit
  | 0, s => .ok () s
  | n + 1, s =>
    (skip_amount s).bind fun _ s =>
    (decodeScript s).expectThen fun _ s => skipPegoutListClaim n s

/-- Written from claim C3's wording: the kernel skipper as the claim
describes it, identical to `skip_kernelSrc` except that bit 2 gates the
length-prefixed pegout list of `skipPegoutListClaim`. -/
def skipKernelClaim (stream : List UInt8) : DResult Unit :=
  (readByte stream).expectThen fun features stream =>
  (if features &&& 1 ≠ 0 then skip_amount stream else DResult.ok () stream).bind fun _ stream =>
  (if features &&& 2 ≠ 0 then skip_amount stream else DResult.ok () stream).bind fun _ stream =>
  (if features &&& 4 ≠ 0 then
      (read_array_len stream).bind fun n stream => skipPegoutListClaim n stream
    else DResult.ok () stream).bind fun _ stream =>
  (if features &&& 8 ≠ 0 then DResult.ok () (skipSrc stream 4) else DResult.ok () stream).bind fun _ stream =>
  (if features &&& 16 ≠ 0 then DResult.ok () (skipSrc stream 33) else DResult.ok () stream).bind fun _ stream =>
  (if features &&& 32 ≠ 0 then
      (read_array_len stream).bind fun len stream => DResult.ok () (skipSrc stream len)
    else DResult.ok () stream).bind fun _ stream =>
  .ok () (skipSrc (skipSrc stream 33) 64)

/-- Structural well-formedness of the optional standard fields: the Rust
type system guarantees these shapes (fixed-size arrays, a `u64`, and a
`PublicKey` built by `from_slice`). -/
def WellFormedStandardFields (isV : List UInt8 → Bool) :
    Option OutputMessageStandardFields → Bool
  | none => true
  | some fields =>
    (fields.key_exchange_pubkey.bytes.length == 33) && isV fields.key_exchange_pubkey.bytes
      && decide (fields.masked_value < 2 ^ 64) && (fields.masked_nonce.length == 16)

/-- Structural well-formedness of an `Output` value: exactly the shape
invariants the Rust type system enforces (`[u8; 33]`, `[u8; 675]`,
`[u8; 64]`, `u64`, `Vec` length fitting `u64`, and `PublicKey`s holding
valid 33-byte compressed points). -/
def WellFormedOutput (isV : List UInt8 → Bool) (o : Output) : Bool :=
  (o.commitment.length == 33)
    && (o.sender_public_key.bytes.length == 33) && isV o.sender_public_key.bytes
    && (o.receiver_public_key.bytes.length == 33) && isV o.receiver_public_key.bytes
    && WellFormedStandardFields isV o.message.standard_fields
    && decide (o.message.extra_data.length < 2 ^ 64)
    && (o.range_proof.length == 675) && (o.signature.length == 64)

/-- A sample output accepted by `pkOracle`, used to instantiate
universally quantified theorems in closed witness statements. -/
def sampleOutput : Output :=
  { commitment := List.replicate 33 0
    sender_public_key := ⟨List.replicate 33 2⟩
    receiver_public_key := ⟨List.replicate 33 2⟩
    message :=
      { features := 3
        standard_fields := some
          { key_exchange_pubkey := ⟨List.replicate 33 2⟩
            view_tag := 7
            masked_value := 5
            masked_nonce := List.replicate 16 1 }
        extra_data := [9, 9] }
    range_proof := List.replicate 675 0
    signature := List.replicate 64 0 }

/-! Basic reduction and round-trip lemmas. -/

@[simp]
theorem DResult.ok_bind {α β : Type} (a : α) (r : List UInt8) (f : α → List UInt8 → DResult β) :
    (DResult.ok a r).bind f = f a r := rfl

@[simp]
theorem DResult.err_bind {α β : Type} (e : DecodeErr) (f : α → List UInt8 → DResult β) :
    (DResult.err e).bind f = .err e := rfl

@[simp]
theorem DResult.panic_bind {α β : Type} (f : α → List UInt8 → DResult β) :
    (DResult.panic : DResult α).bind f = .panic := rfl

@[simp]
theorem DResult.ok_expectThen {α β : Type} (a : α) (r : List UInt8)
    (f : α → List UInt8 → DResult β) : (DResult.ok a r).expectThen f = f a r := rfl

@[simp]
theorem DResult.err_expectThen {α β : Type} (e : DecodeErr) (f : α → List UInt8 → DResult β) :
    (DResult.err e : DResult α).expectThen f = .panic := rfl

@[simp]
theorem DResult.panic_expectThen {α β : Type} (f : α → List UInt8 → DResult β) :
    (DResult.panic : DResult α).expectThen f = .panic := rfl

@[simp]
theorem Option.some_unwrapThen {α β : Type} (a : α) (f : α → DResult β) :
    (some a).unwrapThen f = f a := rfl

@[simp]
theorem Option.none_unwrapThen {α β : Type} (f : α → DResult β) :
    (none : Option α).unwrapThen f = .panic := rfl

theorem readBytes_exact (a : List UInt8) (n : Nat) (h : a.length = n) :
    ∀ t : List UInt8, readBytes n (a ++ t) = .ok a t := by
  intro t
  subst h
  unfold readBytes
  rw [if_pos (by simp)]
  rw [List.take_left, List.drop_left]

theorem readBytes_all (a : List UInt8) (n : Nat) (h : a.length = n) :
    readBytes n a = .ok a [] := by
  subst h
  unfold readBytes
  rw [if_pos (le_refl _)]
  rw [List.take_length, List.drop_length]

theorem skipSrc_exact (a : List UInt8) (n : Nat) (h : a.length = n) :
    ∀ t : List UInt8, skipSrc (a ++ t) n = t := by
  intro t
  subst h
  unfold skipSrc
  exact List.drop_left a t

theorem leBytes_length (k : Nat) : ∀ v : Nat, (leBytes k v).length = k := by
  induction k with
  | zero => intro v; rfl
  | succ k ih => intro v; simp [leBytes, ih]

theorem toNat_ofNat8 (n : Nat) : (UInt8.ofNat n).toNat = n % 256 := rfl

theorem leNat_leBytes_mod (k : Nat) : ∀ v : Nat, leNat (leBytes k v) = v % 2 ^ (8 * k) := by
  induction k with
  | zero => intro v; simp [leBytes, leNat, Nat.mod_one]
  | succ k ih =>
    intro v
    have hp : (2 : Nat) ^ (8 * (k + 1)) = 256 * 2 ^ (8 * k) := by ring
    simp only [leBytes, leNat, ih, toNat_ofNat8, hp, Nat.mod_mul]
    omega

theorem leNat_leBytes (k v : Nat) (h : v < 2 ^ (8 * k)) : leNat (leBytes k v) = v := by
  rw [leNat_leBytes_mod, Nat.mod_eq_of_lt h]

theorem decodeU64_encode (v : Nat) (h : v < 2 ^ 64) :
    ∀ t : List UInt8, decodeU64 (encodeU64le v ++ t) = .ok v t := by
  intro t
  unfold decodeU64 encodeU64le
  rw [readBytes_exact _ 8 (leBytes_length 8 v) t]
  simp [leNat_leBytes 8 v h]

theorem decodeVarInt_encode (v : Nat) (h : v < 2 ^ 64) :
    ∀ t : List UInt8, decodeVarInt (encodeVarInt v ++ t) = .ok v t := by
  intro t
  unfold encodeVarInt
  by_cases h1 : v < 0xFD
  · rw [if_pos h1]
    show decodeVarInt (UInt8.ofNat v :: t) = .ok v t
    simp only [decodeVarInt]
    have hv : (UInt8.ofNat v).toNat = v := by rw [toNat_ofNat8]; omega
    rw [hv, if_pos h1]
  · rw [if_neg h1]
    by_cases h2 : v < 0x10000
    · rw [if_pos h2]
      show decodeVarInt (UInt8.ofNat 0xFD :: (leBytes 2 v ++ t)) = .ok v t
      simp only [decodeVarInt]
      rw [if_neg (by norm_num [toNat_ofNat8]), if_pos (by norm_num [toNat_ofNat8])]
      rw [readBytes_exact _ 2 (leBytes_length 2 v) t]
      simp [leNat_leBytes 2 v (by norm_num; omega)]
    · rw [if_neg h2]
      by_cases h3 : v < 0x100000000
      · rw [if_pos h3]
        show decodeVarInt (UInt8.ofNat 0xFE :: (leBytes 4 v ++ t)) = .ok v t
        simp only [decodeVarInt]
        rw [if_neg (by norm_num [toNat_ofNat8]), if_neg (by norm_num [toNat_ofNat8]),
          if_pos (by norm_num [toNat_ofNat8])]
        rw [readBytes_exact _ 4 (leBytes_length 4 v) t]
        simp [leNat_leBytes 4 v (by norm_num; omega)]
      · rw [if_neg h3]
        show decodeVarInt (UInt8.ofNat 0xFF :: (leBytes 8 v ++ t)) = .ok v t
        simp only [decodeVarInt]
        rw [if_neg (by norm_num [toNat_ofNat8]), if_neg (by norm_num [toNat_ofNat8]),
          if_neg (by norm_num [toNat_ofNat8])]
        rw [readBytes_exact _ 8 (leBytes_length 8 v) t]
        simp [leNat_leBytes 8 v (by norm_num; omega)]

theorem decodeVecU8_encode (d : List UInt8) (h : d.length < 2 ^ 64) :
    ∀ t : List UInt8, decodeVecU8 (encodeVecU8 d ++ t) = .ok d t := by
  intro t
  unfold decodeVecU8 encodeVecU8
  rw [List.append_assoc, decodeVarInt_encode d.length h (d ++ t)]
  rw [DResult.ok_bind]
  exact readBytes_exact d d.length rfl t

theorem decodeScript_encode (d : List UInt8) (h : d.length < 2 ^ 64) :
    ∀ t : List UInt8, decodeScript (encodeVecU8 d ++ t) = .ok d t := by
  intro t
  show decodeVecU8 (encodeVecU8 d ++ t) = .ok d t
  exact decodeVecU8_encode d h t

theorem read_array_len_encode (n : Nat) (h : n < 2 ^ 64) :
    ∀ t : List UInt8, read_array_len (encodeVarInt n ++ t) = .ok n t := by
  intro t
  unfold read_array_len
  rw [decodeVarInt_encode n h t]
  rfl

/-! Error classification: the primitive readers only ever produce the
truncation error, and `expect`/`unwrap` turn errors into panics. -/

theorem DResult.bind_err_elim {α β : Type} {x : DResult α} {f : α → List UInt8 → DResult β}
    {e : DecodeErr} (h : x.bind f = .err e) : x = .err e ∨ ∃ a r, f a r = .err e := by
  cases x with
  | ok a r => exact Or.inr ⟨a, r, h⟩
  | err e2 =>
    simp only [DResult.err_bind, DResult.err.injEq] at h
    exact Or.inl (by rw [h])
  | panic => simp [DResult.panic_bind] at h

theorem DResult.expectThen_err_elim {α β : Type} {x : DResult α}
    {f : α → List UInt8 → DResult β} {e : DecodeErr} (h : x.expectThen f = .err e) :
    ∃ a r, f a r = .err e := by
  cases x with
  | ok a r => exact ⟨a, r, h⟩
  | err e2 => simp [DResult.err_expectThen] at h
  | panic => simp [DResult.panic_expectThen] at h

theorem Option.unwrapThen_err_elim {α β : Type} {o : Option α} {f : α → DResult β}
    {e : DecodeErr} (h : o.unwrapThen f = .err e) : ∃ a, f a = .err e := by
  cases o with
  | some a => exact ⟨a, h⟩
  | none => simp [Option.none_unwrapThen] at h

theorem readByte_err {s : List UInt8} {e : DecodeErr} (h : readByte s = .err e) :
    e = .truncated := by
  cases s with
  | nil => simp [readByte] at h; rw [h]
  | cons b t => simp [readByte] at h

theorem readBytes_err {n : Nat} {s : List UInt8} {e : DecodeErr}
    (h : readBytes n s = .err e) : e = .truncated := by
  unfold readBytes at h
  split at h
  · simp at h
  · simp only [DResult.err.injEq] at h; rw [h]

theorem decodeVarInt_err {s : List UInt8} {e : DecodeErr} (h : decodeVarInt s = .err e) :
    e = .truncated := by
  cases s with
  | nil => simp only [decodeVarInt, DResult.err.injEq] at h; rw [h]
  | cons b t =>
    simp only [decodeVarInt] at h
    split at h
    · simp at h
    split at h
    · rcases DResult.bind_err_elim h with h | ⟨a, r, h⟩
      · exact readBytes_err h
      · simp at h
    split at h
    · rcases DResult.bind_err_elim h with h | ⟨a, r, h⟩
      · exact readBytes_err h
      · simp at h
    · rcases DResult.bind_err_elim h with h | ⟨a, r, h⟩
      · exact readBytes_err h
      · simp at h

theorem decodeU64_err {s : List UInt8} {e : DecodeErr} (h : decodeU64 s = .err e) :
    e = .truncated := by
  unfold decodeU64 at h
  rcases DResult.bind_err_elim h with h | ⟨a, r, h⟩
  · exact readBytes_err h
  · simp at h

theorem decodeVecU8_err {s : List UInt8} {e : DecodeErr} (h : decodeVecU8 s = .err e) :
    e = .truncated := by
  unfold decodeVecU8 at h
  rcases DResult.bind_err_elim h with h | ⟨a, r, h⟩
  · exact decodeVarInt_err h
  · exact readBytes_err h

theorem read_array_len_err {s : List UInt8} {e : DecodeErr}
    (h : read_array_len s = .err e) : False := by
  unfold read_array_len at h
  rcases DResult.expectThen_err_elim h with ⟨a, r, h⟩
  simp at h

theorem OutputMessage.msg_decode_err_truncated {isV : List UInt8 → Bool} {s : List UInt8} {e : DecodeErr}
    (h : OutputMessage.consensus_decode isV s = .err e) : e = .truncated := by
  unfold OutputMessage.consensus_decode at h
  rcases DResult.bind_err_elim h with h | ⟨features, d, h⟩
  · exact readByte_err h
  rcases DResult.bind_err_elim h with h | ⟨sf, d2, h⟩
  · split at h
    · rcases DResult.bind_err_elim h with h | ⟨bs, d3, h⟩
      · exact readBytes_err h
      rcases Option.unwrapThen_err_elim h with ⟨k, h⟩
      rcases DResult.bind_err_elim h with h | ⟨vt, d4, h⟩
      · exact readByte_err h
      rcases DResult.bind_err_elim h with h | ⟨mv, d5, h⟩
      · exact decodeU64_err h
      rcases DResult.bind_err_elim h with h | ⟨nn, d6, h⟩
      · exact readBytes_err h
      simp at h
    · simp at h
  rcases DResult.bind_err_elim h with h | ⟨ed, d7, h⟩
  · split at h
    · exact decodeVecU8_err h
    · simp at h
  simp at h

theorem Output.output_decode_err_truncated {isV : List UInt8 → Bool} {s : List UInt8} {e : DecodeErr}
    (h : Output.consensus_decode isV s = .err e) : e = .truncated := by
  unfold Output.consensus_decode at h
  rcases DResult.bind_err_elim h with h | ⟨c, d1, h⟩
  · exact readBytes_err h
  rcases DResult.bind_err_elim h with h | ⟨sb, d2, h⟩
  · exact readBytes_err h
  rcases Option.unwrapThen_err_elim h with ⟨sk, h⟩
  rcases DResult.bind_err_elim h with h | ⟨rb, d3, h⟩
  · exact readBytes_err h
  rcases Option.unwrapThen_err_elim h with ⟨rk, h⟩
  rcases DResult.bind_err_elim h with h | ⟨m, d4, h⟩
  · exact OutputMessage.msg_decode_err_truncated h
  rcases DResult.bind_err_elim h with h | ⟨rp, d5, h⟩
  · exact readBytes_err h
  rcases DResult.bind_err_elim h with h | ⟨sg, d6, h⟩
  · exact readBytes_err h
  simp at h

/-- A VarInt read either fails because fewer bytes than `varIntRequiredLen`
are available, or consumes exactly `varIntRequiredLen` bytes. -/
theorem decodeVarInt_cases (s : List UInt8) :
    (s.length < varIntRequiredLen s ∧ decodeVarInt s = .err .truncated)
    ∨ (varIntRequiredLen s ≤ s.length
        ∧ ∃ v, decodeVarInt s = .ok v (s.drop (varIntRequiredLen s))) := by
  cases s with
  | nil => exact Or.inl ⟨by simp [varIntRequiredLen], rfl⟩
  | cons b rest =>
    simp only [decodeVarInt, varIntRequiredLen]
    by_cases h1 : b.toNat < 0xFD
    · rw [if_pos h1, if_pos h1]
      exact Or.inr ⟨by simp, b.toNat, by simp⟩
    rw [if_neg h1, if_neg h1]
    by_cases h2 : b.toNat = 0xFD
    · rw [if_pos h2, if_pos h2]
      unfold readBytes
      by_cases hl : 2 ≤ rest.length
      · rw [if_pos hl]
        refine Or.inr ⟨by simp; omega, leNat (rest.take 2), ?_⟩
        simp [List.drop_succ_cons]
      · rw [if_neg hl]
        exact Or.inl ⟨by simp; omega, rfl⟩
    rw [if_neg h2, if_neg h2]
    by_cases h3 : b.toNat = 0xFE
    · rw [if_pos h3, if_pos h3]
      unfold readBytes
      by_cases hl : 4 ≤ rest.length
      · rw [if_pos hl]
        refine Or.inr ⟨by simp; omega, leNat (rest.take 4), ?_⟩
        simp [List.drop_succ_cons]
      · rw [if_neg hl]
        exact Or.inl ⟨by simp; omega, rfl⟩
    rw [if_neg h3, if_neg h3]
    unfold readBytes
    by_cases hl : 8 ≤ rest.length
    · rw [if_pos hl]
      refine Or.inr ⟨by simp; omega, leNat (rest.take 8), ?_⟩
      simp [List.drop_succ_cons]
    · rw [if_neg hl]
      exact Or.inl ⟨by simp; omega, rfl⟩

/-! The continuation-amount reader. -/

theorem skipAmountLoop_break :
    ∀ (init : List UInt8) (fuel : Nat), init.length < fuel →
      (∀ x ∈ init, x &&& 0x80 ≠ 0) → ∀ (b : UInt8) (t : List UInt8), b &&& 0x80 = 0 →
      skipAmountLoop fuel (init ++ b :: t) = .ok () t := by
  intro init
  induction init with
  | nil =>
    intro fuel hf _ b t hb
    match fuel, hf with
    | n + 1, _ =>
      simp only [List.nil_append, skipAmountLoop, readByte, DResult.ok_expectThen]
      rw [if_pos hb]
  | cons x xs ih =>
    intro fuel hf hset b t hb
    match fuel, hf with
    | n + 1, hf =>
      simp only [List.cons_append, skipAmountLoop, readByte, DResult.ok_expectThen]
      rw [if_neg (hset x (by simp))]
      exact ih n (by simp at hf; omega) (fun y hy => hset y (by simp [hy])) b t hb

theorem skipAmountLoop_full :
    ∀ (a t : List UInt8), (∀ x ∈ a, x &&& 0x80 ≠ 0) →
      skipAmountLoop a.length (a ++ t) = .ok () t := by
  intro a
  induction a with
  | nil => intro t _; rfl
  | cons x xs ih =>
    intro t hset
    simp only [List.cons_append, List.length_cons, skipAmountLoop, readByte,
      DResult.ok_expectThen]
    rw [if_neg (hset x (by simp))]
    exact ih t (fun y hy => hset y (by simp [hy]))

theorem skip_amount_exact (a : List UInt8) (h : IsAmountBytes a) :
    ∀ t : List UInt8, skip_amount (a ++ t) = .ok () t := by
  intro t
  unfold skip_amount
  rcases h with ⟨init, b, rfl, hlen, hset, hb⟩ | ⟨hlen, hset⟩
  · rw [List.append_assoc, List.singleton_append]
    exact skipAmountLoop_break init 10 (by omega) hset b t hb
  · rw [← hlen]
    exact skipAmountLoop_full a t hset

/-- Successful runs of the amount skipper: some `n ≤ fuel` bytes were
consumed, everything before the last consumed byte had the high bit set,
and either the fuel ran out or the last consumed byte had it clear. -/
theorem skipAmountLoop_ok_char :
    ∀ (fuel : Nat) (s : List UInt8) (r : List UInt8),
      skipAmountLoop fuel s = .ok () r →
      ∃ n, n ≤ fuel ∧ r = s.drop n
        ∧ (n = fuel ∨ (1 ≤ n ∧ ∃ b, s.get? (n - 1) = some b ∧ b &&& 0x80 = 0))
        ∧ (∀ j, j + 1 < n → ∃ b, s.get? j = some b ∧ b &&& 0x80 ≠ 0) := by
  intro fuel
  induction fuel with
  | zero =>
    intro s r h
    simp only [skipAmountLoop, DResult.ok.injEq] at h
    exact ⟨0, by omega, h.2.symm, Or.inl rfl, by omega⟩
  | succ n ih =>
    intro s r h
    cases s with
    | nil => simp [skipAmountLoop, readByte] at h
    | cons b t =>
      simp only [skipAmountLoop, readByte, DResult.ok_expectThen] at h
      by_cases hb : b &&& 0x80 = 0
      · rw [if_pos hb] at h
        simp only [DResult.ok.injEq] at h
        refine ⟨1, by omega, by simp [h.2.symm], Or.inr ⟨le_refl 1, b, by simp, hb⟩, ?_⟩
        intro j hj; omega
      · rw [if_neg hb] at h
        rcases ih t r h with ⟨m, hm, hr, hlast, hbefore⟩
        refine ⟨m + 1, by omega, by simp [hr], ?_, ?_⟩
        · rcases hlast with hm' | ⟨hm1, c, hc, hc0⟩
          · exact Or.inl (by omega)
          · refine Or.inr ⟨by omega, c, ?_, hc0⟩
            have : m + 1 - 1 = (m - 1) + 1 := by omega
            rw [this, List.get?_cons_succ]
            exact hc
        · intro j hj
          cases j with
          | zero => exact ⟨b, by simp, hb⟩
          | succ k =>
            rw [List.get?_cons_succ]
            exact hbefore k (by omega)

/-- Whenever at least `fuel` bytes are available the loop terminates
successfully having consumed at most `fuel` bytes. -/
theorem skipAmountLoop_total :
    ∀ (fuel : Nat) (s : List UInt8), fuel ≤ s.length →
      ∃ r, skipAmountLoop fuel s = .ok () r ∧ s.length ≤ r.length + fuel := by
  intro fuel
  induction fuel with
  | zero => intro s _; exact ⟨s, rfl, by omega⟩
  | succ n ih =>
    intro s hs
    cases s with
    | nil => simp at hs
    | cons b t =>
      simp only [skipAmountLoop, readByte, DResult.ok_expectThen]
      by_cases hb : b &&& 0x80 = 0
      · rw [if_pos hb]
        exact ⟨t, rfl, by simp only [List.length_cons]; omega⟩
      · rw [if_neg hb]
        rcases ih t (by simp only [List.length_cons] at hs; omega) with ⟨r, hr, hlen⟩
        exact ⟨r, hr, by simp only [List.length_cons]; omega⟩

theorem DResult.mapVal_bind {α β γ : Type} (g : β → γ) (x : DResult α)
    (f : α → List UInt8 → DResult β) :
    (x.bind f).mapVal g = x.bind fun a r => (f a r).mapVal g := by
  cases x <;> rfl

/-- C2: the claim says a correctly sized but invalid 33-byte public key
makes `Output::consensus_decode` return a typed invalid-public-key error,
distinct from truncation, never terminating abruptly.  In the code the
key goes through `PublicKey::from_slice(..).unwrap()`: on an invalid key
(33 zero bytes in the sender-key position) the decode panics, and the
typed error channel only ever carries the truncation error. -/
theorem C2_invalid_pubkey_panics :
    Output.consensus_decode pkOracle (List.replicate 33 0 ++ List.replicate 33 0) = .panic
    ∧ ∀ (isV : List UInt8 → Bool) (s : List UInt8),
        Output.consensus_decode isV s = .err .truncated
        ∨ Output.consensus_decode isV s = .panic
        ∨ ∃ o rest, Output.consensus_decode isV s = .ok o rest := by
  constructor
  · decide
  · intro isV s
    cases h : Output.consensus_decode isV s with
    | ok o rest => exact Or.inr (Or.inr ⟨o, rest, rfl⟩)
    | err e => exact Or.inl (by rw [← Output.output_decode_err_truncated h])
    | panic => exact Or.inr (Or.inl rfl)

/-- C4: the claim says `Transaction::consensus_decode` first consumes
exactly 64 bytes and that every `skip(stream, n)` advances exactly `n`
bytes or fails.  The `src/bitcoin` copy of `skip` reads into an empty
slice: it consumes nothing for every stream and count, and consequently
a 3-byte stream already decodes as a complete `Transaction` with nothing
left over. -/
theorem C4_skip_consumes_nothing :
    (∀ (s : List UInt8) (n : Nat), skip s n = s)
    ∧ Transaction.consensus_decode pkOracle [0, 0, 0] = .ok ⟨⟨[], []⟩⟩ [] :=
  ⟨fun _ _ => rfl, by decide⟩

/-- C6: the claim says a declared length larger than the remaining
stream is rejected before any allocation sized by it.  In
`Vec<Input>::consensus_decode` the capacity passed to
`Vec::with_capacity` right after the VarInt read is the attacker-chosen
4294967295 although no further byte is available: allocation happens
first, the truncation error only afterwards, during element decoding. -/
theorem C6_allocation_before_check :
    vecInputAllocatedCapacity [0xFE, 0xFF, 0xFF, 0xFF, 0xFF] = some 4294967295
    ∧ ([0xFE, 0xFF, 0xFF, 0xFF, 0xFF] : List UInt8).length = 5
    ∧ VecInput.consensus_decode [0xFE, 0xFF, 0xFF, 0xFF, 0xFF] = .err .truncated :=
  ⟨by decide, rfl, by decide⟩

/-- C10 counterexample: the claim says the two copies of
`OutputMessage::consensus_encode` write identical bytes for every
message; on the message with features byte 0, no standard fields and
empty extra data, the `src/src` copy writes the extra length prefix the
`src/bitcoin` copy omits. -/
theorem C10_encoders_differ :
    OutputMessage.consensus_encodeSrc ⟨0, none, []⟩
      ≠ OutputMessage.consensus_encode ⟨0, none, []⟩ := by decide

/-- C10 amended: the two copies of `OutputMessage::consensus_encode`
agree exactly when the extra-data feature bit is set; when it is clear
the `src/src` copy appends the length-prefixed `extra_data` that the
`src/bitcoin` copy omits. -/
theorem C10_amended_encoders_agree_iff_extra_bit (m : OutputMessage) :
    (m.features &&& ExtraDataFeatureBit ≠ 0 →
      OutputMessage.consensus_encodeSrc m = OutputMessage.consensus_encode m)
    ∧ (m.features &&& ExtraDataFeatureBit = 0 →
      OutputMessage.consensus_encodeSrc m
        = OutputMessage.consensus_encode m ++ encodeVecU8 m.extra_data) := by
  constructor
  · intro h
    unfold OutputMessage.consensus_encodeSrc OutputMessage.consensus_encode
    rw [if_pos h]
  · intro h
    unfold OutputMessage.consensus_encodeSrc OutputMessage.consensus_encode
    rw [if_neg (fun hne => hne h)]
    simp [List.append_assoc]

/-- C10 amended witness at a message with the extra-data bit set. -/
theorem C10_amended_witness :
    OutputMessage.consensus_encodeSrc ⟨2, none, [7]⟩
      = OutputMessage.consensus_encode ⟨2, none, [7]⟩ :=
  (C10_amended_encoders_agree_iff_extra_bit ⟨2, none, [7]⟩).1 (by decide)

set_option maxRecDepth 100000 in
/-- C8 counterexample: the claim says an `OutputMessage` features byte
with any bit outside bits 0 and 1 set makes `Output` decoding fail with
a hard unsupported-shape error; decoding a full output whose message
features byte is 4 succeeds instead. -/
theorem C8_unknown_bits_accepted :
    Output.consensus_decode pkOracle
      (List.replicate 33 0 ++ List.replicate 33 2 ++ List.replicate 33 2 ++ [4]
        ++ List.replicate 675 0 ++ List.replicate 64 0)
      = .ok ⟨List.replicate 33 0, ⟨List.replicate 33 2⟩, ⟨List.replicate 33 2⟩,
             ⟨4, none, []⟩, List.replicate 675 0, List.replicate 64 0⟩ [] := by decide

/-- C8 amended: `OutputMessage::consensus_decode` ignores every feature
bit other than bits 0 and 1: decoding with a features byte `g` behaves
exactly like decoding with any `f` agreeing with `g` on those two bits,
except for the features byte stored in the result; in particular
unrecognized bits never cause a failure. -/
theorem C8_amended_unknown_bits_ignored (isV : List UInt8 → Bool) (f g : UInt8)
    (s : List UInt8) (h1 : f &&& StandardFieldsFeatureBit = g &&& StandardFieldsFeatureBit)
    (h2 : f &&& ExtraDataFeatureBit = g &&& ExtraDataFeatureBit) :
    OutputMessage.consensus_decode isV (g :: s)
      = (OutputMessage.consensus_decode isV (f :: s)).mapVal
          (fun m => { m with features := g }) := by
  unfold OutputMessage.consensus_decode
  simp only [readByte, DResult.ok_bind]
  rw [← h1, ← h2, DResult.mapVal_bind]
  congr 1
  funext sf d
  rw [DResult.mapVal_bind]
  congr 1

/-- C8 amended witness: features byte 4 (an unrecognized bit) decodes
exactly as features byte 0 does, keeping the byte 4. -/
theorem C8_amended_witness :
    OutputMessage.consensus_decode pkOracle (4 :: [])
      = (OutputMessage.consensus_decode pkOracle ((0 : UInt8) :: [])).mapVal
          (fun m => { m with features := 4 }) :=
  C8_amended_unknown_bits_ignored pkOracle 0 4 [] (by decide) (by decide)

/-- C3 counterexample: the claim describes the pegout field (kernel
features bit 2) as a VarInt entry count followed by that many
amount-script pairs; the source skips exactly one amount and one script
with no count, so on a concrete kernel the source skipper and the
claimed skipper leave the cursor in different places. -/
theorem C3_pegout_list_counterexample :
    skip_kernelSrc (4 :: List.replicate 99 0)
      ≠ skipKernelClaim (4 :: List.replicate 99 0) := by decide

/-- C7: `OutputMessage` flag independence.  With both feature bits clear
decoding consumes exactly the features byte and yields no standard
fields and empty extra data; with bit 0 set and bit 1 clear it consumes
exactly 59 bytes (features, 33-byte key, view tag, 8-byte masked value,
16-byte masked nonce) and yields populated standard fields and empty
extra data; with bit 0 clear, bit 1 set and a declared extra-data length
of 5 it consumes exactly 1 + 1 + 5 bytes.  Exact consumption is stated
by quantifying over the arbitrary rest of the stream. -/
theorem C7_output_message_flag_cases (isV : List UInt8 → Bool) :
    (∀ (f : UInt8) (rest : List UInt8), f &&& StandardFieldsFeatureBit = 0 →
        f &&& ExtraDataFeatureBit = 0 →
        OutputMessage.consensus_decode isV (f :: rest) = .ok ⟨f, none, []⟩ rest)
    ∧ (∀ (f : UInt8) (key : List UInt8) (vt : UInt8) (mv : Nat) (nonce rest : List UInt8),
        f &&& StandardFieldsFeatureBit ≠ 0 → f &&& ExtraDataFeatureBit = 0 →
        key.length = 33 → isV key = true → mv < 2 ^ 64 → nonce.length = 16 →
        OutputMessage.consensus_decode isV
            (f :: (key ++ vt :: (encodeU64le mv ++ (nonce ++ rest))))
          = .ok ⟨f, some ⟨⟨key⟩, vt, mv, nonce⟩, []⟩ rest)
    ∧ (∀ (f : UInt8) (d5 rest : List UInt8), f &&& StandardFieldsFeatureBit = 0 →
        f &&& ExtraDataFeatureBit ≠ 0 → d5.length = 5 →
        OutputMessage.consensus_decode isV (f :: 5 :: (d5 ++ rest))
          = .ok ⟨f, none, d5⟩ rest) := by
  refine ⟨?_, ?_, ?_⟩
  · intro f rest h1 h2
    unfold OutputMessage.consensus_decode
    simp only [readByte, DResult.ok_bind]
    rw [if_neg (fun hne => hne h1)]
    simp only [DResult.ok_bind]
    rw [if_neg (fun hne => hne h2)]
    rfl
  · intro f key vt mv nonce rest h1 h2 hkey hisv hmv hnonce
    unfold OutputMessage.consensus_decode
    simp only [readByte, DResult.ok_bind]
    rw [if_pos h1, readBytes_exact key 33 hkey]
    simp only [DResult.ok_bind]
    unfold PublicKey.from_slice
    rw [if_pos ⟨hkey, hisv⟩]
    simp only [Option.some_unwrapThen, readByte, DResult.ok_bind]
    rw [decodeU64_encode mv hmv (nonce ++ rest)]
    simp only [DResult.ok_bind]
    rw [readBytes_exact nonce 16 hnonce rest]
    simp only [DResult.ok_bind]
    rw [if_neg (fun hne => hne h2)]
    rfl
  · intro f d5 rest h1 h2 hd5
    unfold OutputMessage.consensus_decode
    simp only [readByte, DResult.ok_bind]
    rw [if_neg (fun hne => hne h1)]
    simp only [DResult.ok_bind]
    rw [if_pos h2]
    unfold decodeVecU8
    simp only [decodeVarInt]
    rw [if_pos (by decide)]
    have h5 : (5 : UInt8).toNat = 5 := rfl
    rw [h5]
    simp only [DResult.ok_bind]
    rw [readBytes_exact d5 5 hd5 rest]
    rfl

/-- C7 witness: the three flag cases evaluated on concrete streams, each
leaving the trailing byte 9 unread. -/
theorem C7_witness :
    OutputMessage.consensus_decode pkOracle ((0 : UInt8) :: [9]) = .ok ⟨0, none, []⟩ [9]
    ∧ OutputMessage.consensus_decode pkOracle
        (1 :: (List.replicate 33 2 ++ 7 :: (encodeU64le 5 ++ (List.replicate 16 1 ++ [9]))))
        = .ok ⟨1, some ⟨⟨List.replicate 33 2⟩, 7, 5, List.replicate 16 1⟩, []⟩ [9]
    ∧ OutputMessage.consensus_decode pkOracle (2 :: 5 :: ([1, 2, 3, 4, 5] ++ [9]))
        = .ok ⟨2, none, [1, 2, 3, 4, 5]⟩ [9] :=
  ⟨(C7_output_message_flag_cases pkOracle).1 0 [9] (by decide) (by decide),
   (C7_output_message_flag_cases pkOracle).2.1 1 (List.replicate 33 2) 7 5
     (List.replicate 16 1) [9] (by decide) (by decide) (by decide) (by decide)
     (by norm_num) (by decide),
   (C7_output_message_flag_cases pkOracle).2.2 2 [1, 2, 3, 4, 5] [9] (by decide) (by decide)
     (by decide)⟩

/-- C9: the continuation-amount skipper consumes at most 10 bytes, stops
immediately after the first byte whose high bit is clear (all earlier
consumed bytes have it set), and whenever 10 bytes are available it
terminates successfully having consumed at most 10 of them. -/
theorem C9_skip_amount_bounded (s : List UInt8) :
    (∀ r, skip_amount s = .ok () r →
      ∃ n, n ≤ 10 ∧ r = s.drop n
        ∧ (n = 10 ∨ (1 ≤ n ∧ ∃ b, s.get? (n - 1) = some b ∧ b &&& 0x80 = 0))
        ∧ (∀ j, j + 1 < n → ∃ b, s.get? j = some b ∧ b &&& 0x80 ≠ 0))
    ∧ (10 ≤ s.length → ∃ r, skip_amount s = .ok () r ∧ s.length ≤ r.length + 10) := by
  constructor
  · intro r h
    exact skipAmountLoop_ok_char 10 s r h
  · intro hs
    exact skipAmountLoop_total 10 s hs

/-- C9 witness: on the stream 0x80 0x00 0x55 the skipper stops right
after the second byte (the first with a clear high bit). -/
theorem C9_witness :
    ∃ n, n ≤ 10 ∧ ([0x55] : List UInt8) = ([0x80, 0x00, 0x55] : List UInt8).drop n
      ∧ (n = 10 ∨ (1 ≤ n ∧ ∃ b, ([0x80, 0x00, 0x55] : List UInt8).get? (n - 1) = some b
          ∧ b &&& 0x80 = 0))
      ∧ (∀ j, j + 1 < n → ∃ b, ([0x80, 0x00, 0x55] : List UInt8).get? j = some b
          ∧ b &&& 0x80 ≠ 0) :=
  (C9_skip_amount_bounded [0x80, 0x00, 0x55]).1 [0x55] (by decide)

/-- C5: `Input::consensus_decode` returns a value containing only the
32-byte output identifier (the bytes right after the features byte); its
only typed error is truncation — curve-point validity plays no role
since the key fields are skipped, not parsed — and any failure, typed
error or panic, occurs only when the stream holds fewer bytes than the
wire layout for its features byte requires. -/
theorem C5_input_decode_only_truncation (s : List UInt8) :
    (∀ v r, Input.consensus_decode s = .ok v r → v.output_id = (s.drop 1).take 32)
    ∧ (∀ e, Input.consensus_decode s = .err e → e = .truncated)
    ∧ ((Input.consensus_decode s = .err .truncated ∨ Input.consensus_decode s = .panic)
        → s.length < inputRequiredLen s) := by
  cases s with
  | nil =>
    refine ⟨?_, ?_, ?_⟩
    · intro v r h
      simp [Input.consensus_decode, readByte] at h
    · intro e h
      simp only [Input.consensus_decode, readByte, DResult.err_bind, DResult.err.injEq] at h
      exact h.symm
    · intro _
      simp [inputRequiredLen]
  | cons f t =>
    by_cases h32 : 32 ≤ t.length
    · have hrb : readBytes 32 t = .ok (t.take 32) (t.drop 32) := by
        unfold readBytes
        rw [if_pos h32]
      by_cases hB : f &&& 2 ≠ 0
      · rcases decodeVarInt_cases (t.drop 32) with ⟨hlen, heq⟩ | ⟨hlen, v, heq⟩
        · have hdec : Input.consensus_decode (f :: t) = .panic := by
            simp only [Input.consensus_decode, readByte, DResult.ok_bind, skip, ite_self,
              hrb, if_pos hB, read_array_len, heq, DResult.err_expectThen,
              DResult.panic_bind]
          refine ⟨?_, ?_, ?_⟩ <;> rw [hdec]
          · intro v r h
            simp at h
          · intro e h
            simp at h
          · intro _
            simp only [inputRequiredLen, List.length_cons, if_pos hB]
            have hdrop : (f :: t).drop 33 = t.drop 32 := rfl
            rw [hdrop, heq]
            have hlen2 : (t.drop 32).length = t.length - 32 := List.length_drop 32 t
            omega
        · have hdec : Input.consensus_decode (f :: t)
              = .ok ⟨t.take 32⟩ ((t.drop 32).drop (varIntRequiredLen (t.drop 32))) := by
            simp only [Input.consensus_decode, readByte, DResult.ok_bind, skip, ite_self,
              hrb, if_pos hB, read_array_len, heq, DResult.ok_expectThen]
          refine ⟨?_, ?_, ?_⟩ <;> rw [hdec]
          · intro v r h
            injection h with h1 h2
            rw [← h1]
            rfl
          · intro e h
            simp at h
          · intro h
            rcases h with h | h <;> simp at h
      · have hdec : Input.consensus_decode (f :: t) = .ok ⟨t.take 32⟩ (t.drop 32) := by
          simp only [Input.consensus_decode, readByte, DResult.ok_bind, skip, ite_self,
            hrb, if_neg hB]
        refine ⟨?_, ?_, ?_⟩ <;> rw [hdec]
        · intro v r h
          injection h with h1 h2
          rw [← h1]
          rfl
        · intro e h
          simp at h
        · intro h
          rcases h with h | h <;> simp at h
    · have hrb : readBytes 32 t = .err .truncated := by
        unfold readBytes
        rw [if_neg h32]
      have hdec : Input.consensus_decode (f :: t) = .err .truncated := by
        simp only [Input.consensus_decode, readByte, DResult.ok_bind, hrb, DResult.err_bind]
      refine ⟨?_, ?_, ?_⟩ <;> rw [hdec]
      · intro v r h
        simp at h
      · intro e h
        injection h with h1
        exact h1.symm
      · intro _
        simp only [inputRequiredLen, List.length_cons]
        omega

/-- C5 witness: a 33-byte stream with features byte 0 decodes to exactly
the 32 identifier bytes; the one-byte stream `[0]` fails and indeed holds
fewer than the 163 bytes its layout requires. -/
theorem C5_witness :
    (⟨List.replicate 32 7⟩ : Input).output_id
        = (((0 : UInt8) :: List.replicate 32 7).drop 1).take 32
    ∧ ([0] : List UInt8).length < inputRequiredLen [0] :=
  ⟨(C5_input_decode_only_truncation ((0 : UInt8) :: List.replicate 32 7)).1
      ⟨List.replicate 32 7⟩ [] (by decide),
   (C5_input_decode_only_truncation [0]).2.2 (Or.inl (by decide))⟩

/-- Decoding an encoded `OutputMessage` (the `src/bitcoin` encoder)
succeeds and returns the message except that `extra_data` is dropped
when its feature bit is clear, since the encoder then writes nothing
for it. -/
theorem OutputMessage.decode_encode (isV : List UInt8 → Bool) (m : OutputMessage)
    (hsf : WellFormedStandardFields isV m.standard_fields = true)
    (hed : m.extra_data.length < 2 ^ 64)
    (hco : (m.features &&& StandardFieldsFeatureBit ≠ 0) ↔ m.standard_fields.isSome) :
    ∀ t, OutputMessage.consensus_decode isV (m.consensus_encode ++ t)
      = .ok ⟨m.features, m.standard_fields,
             if m.features &&& ExtraDataFeatureBit ≠ 0 then m.extra_data else []⟩ t := by
  intro t
  cases hm : m.standard_fields with
  | none =>
    have hb : ¬(m.features &&& StandardFieldsFeatureBit ≠ 0) := by
      rw [hco, hm]
      simp
    unfold OutputMessage.consensus_encode OutputMessage.consensus_decode
    rw [hm]
    simp only [List.append_assoc, List.nil_append, List.cons_append, List.singleton_append,
      readByte, DResult.ok_bind]
    simp only [if_neg hb, DResult.ok_bind]
    by_cases hx : m.features &&& ExtraDataFeatureBit ≠ 0
    · simp only [if_pos hx, decodeVecU8_encode m.extra_data hed, DResult.ok_bind]
    · simp only [if_neg hx, List.nil_append, DResult.ok_bind]
  | some fields =>
    have hb : m.features &&& StandardFieldsFeatureBit ≠ 0 := by
      rw [hco, hm]
      rfl
    rw [hm] at hsf
    simp only [WellFormedStandardFields, Bool.and_eq_true, beq_iff_eq,
      decide_eq_true_eq] at hsf
    obtain ⟨⟨⟨hk33, hkV⟩, hmv⟩, hn16⟩ := hsf
    unfold OutputMessage.consensus_encode OutputMessage.consensus_decode
    rw [hm]
    simp only [PublicKey.serialize, List.append_assoc, List.nil_append, List.cons_append,
      List.singleton_append, readByte, DResult.ok_bind]
    simp only [if_pos hb]
    rw [readBytes_exact fields.key_exchange_pubkey.bytes 33 hk33]
    simp only [DResult.ok_bind]
    unfold PublicKey.from_slice
    rw [if_pos ⟨hk33, hkV⟩]
    simp only [Option.some_unwrapThen, readByte, DResult.ok_bind]
    rw [decodeU64_encode fields.masked_value hmv]
    simp only [DResult.ok_bind]
    rw [readBytes_exact fields.masked_nonce 16 hn16]
    simp only [DResult.ok_bind]
    by_cases hx : m.features &&& ExtraDataFeatureBit ≠ 0
    · simp only [if_pos hx, decodeVecU8_encode m.extra_data hed, DResult.ok_bind]
    · simp only [if_neg hx, List.nil_append, DResult.ok_bind]

/-- The `src/bitcoin` message encoder does not depend on `extra_data`
when the extra-data feature bit is clear. -/
theorem OutputMessage.encode_drop_extra (m : OutputMessage) :
    OutputMessage.consensus_encode
        ⟨m.features, m.standard_fields,
         if m.features &&& ExtraDataFeatureBit ≠ 0 then m.extra_data else []⟩
      = OutputMessage.consensus_encode m := by
  unfold OutputMessage.consensus_encode
  by_cases hx : m.features &&& ExtraDataFeatureBit ≠ 0
  · simp only [if_pos hx]
  · simp only [if_neg hx]

/-- C1: for every structurally valid `Output` whose message features
byte agrees with the presence of its standard fields, encoding with
`Output::consensus_encode`, decoding the bytes with
`Output::consensus_decode`, and encoding the decoded value again yields
exactly the original byte string (and the decode consumes the whole
encoding). -/
theorem C1_output_roundtrip (isV : List UInt8 → Bool) (o : Output)
    (hwf : WellFormedOutput isV o = true)
    (hco : (o.message.features &&& StandardFieldsFeatureBit ≠ 0)
            ↔ o.message.standard_fields.isSome) :
    ∃ o2, Output.consensus_decode isV (Output.consensus_encode o) = .ok o2 []
      ∧ Output.consensus_encode o2 = Output.consensus_encode o := by
  simp only [WellFormedOutput, Bool.and_eq_true, beq_iff_eq, decide_eq_true_eq] at hwf
  obtain ⟨⟨⟨⟨⟨⟨⟨⟨hc33, hs33⟩, hsV⟩, hr33⟩, hrV⟩, hsf⟩, hed⟩, hrp⟩, hsg⟩ := hwf
  refine ⟨{ o with message := ⟨o.message.features, o.message.standard_fields,
      if o.message.features &&& ExtraDataFeatureBit ≠ 0 then o.message.extra_data
      else []⟩ }, ?_, ?_⟩
  · unfold Output.consensus_encode Output.consensus_decode
    simp only [PublicKey.serialize, List.append_assoc]
    rw [readBytes_exact o.commitment 33 hc33]
    simp only [DResult.ok_bind]
    rw [readBytes_exact o.sender_public_key.bytes 33 hs33]
    simp only [DResult.ok_bind]
    unfold PublicKey.from_slice
    rw [if_pos ⟨hs33, hsV⟩]
    simp only [Option.some_unwrapThen]
    rw [readBytes_exact o.receiver_public_key.bytes 33 hr33]
    simp only [DResult.ok_bind]
    rw [if_pos ⟨hr33, hrV⟩]
    simp only [Option.some_unwrapThen]
    rw [OutputMessage.decode_encode isV o.message hsf hed hco]
    simp only [DResult.ok_bind]
    rw [readBytes_exact o.range_proof 675 hrp]
    simp only [DResult.ok_bind]
    rw [readBytes_all o.signature 64 hsg]
    simp only [DResult.ok_bind]
  · unfold Output.consensus_encode
    simp only [OutputMessage.encode_drop_extra]

set_option maxRecDepth 100000 in
/-- C1 witness: the round trip evaluated at `sampleOutput` under the
`pkOracle` validity predicate. -/
theorem C1_witness :
    ∃ o2, Output.consensus_decode pkOracle (Output.consensus_encode sampleOutput)
        = .ok o2 []
      ∧ Output.consensus_encode o2 = Output.consensus_encode sampleOutput :=
  C1_output_roundtrip pkOracle sampleOutput (by decide) (by decide)

theorem read_array_len_encodeVecU8 (d : List UInt8) (h : d.length < 2 ^ 64) :
    ∀ t : List UInt8, read_array_len (encodeVecU8 d ++ t) = .ok d.length (d ++ t) := by
  intro t
  unfold encodeVecU8
  rw [List.append_assoc]
  exact read_array_len_encode d.length h (d ++ t)

/-- C3 amended: the `src/src` kernel skipper handles the optional fields
strictly in bit order — one continuation-encoded amount for bit 0, one
for bit 1, for bit 2 a single continuation-encoded amount followed by a
single script value (no length-prefixed entry count), a 4-byte lock
height for bit 3, a 33-byte stealth excess for bit 4, a length-prefixed
extra-data blob for bit 5 — and unconditionally ends by skipping the
33-byte excess and 64-byte signature, leaving exactly the trailing
stream unread. -/
theorem C3_kernel_skip_amended (f : UInt8)
    (a1 a2 a3 scp lh4 se33 edp x33 sg64 rest : List UInt8)
    (ha1 : IsAmountBytes a1) (ha2 : IsAmountBytes a2) (ha3 : IsAmountBytes a3)
    (hsc : scp.length < 2 ^ 64) (hlh : lh4.length = 4) (hse : se33.length = 33)
    (hed : edp.length < 2 ^ 64) (hx : x33.length = 33) (hs : sg64.length = 64) :
    skip_kernelSrc (f ::
      ((if f &&& 1 ≠ 0 then a1 else [])
        ++ ((if f &&& 2 ≠ 0 then a2 else [])
        ++ ((if f &&& 4 ≠ 0 then a3 ++ encodeVecU8 scp else [])
        ++ ((if f &&& 8 ≠ 0 then lh4 else [])
        ++ ((if f &&& 16 ≠ 0 then se33 else [])
        ++ ((if f &&& 32 ≠ 0 then encodeVecU8 edp else [])
        ++ (x33 ++ (sg64 ++ rest)))))))))
      = .ok () rest := by
  unfold skip_kernelSrc
  simp only [readByte, DResult.ok_expectThen]
  by_cases hb1 : f &&& 1 ≠ 0 <;> by_cases hb2 : f &&& 2 ≠ 0 <;>
    by_cases hb3 : f &&& 4 ≠ 0 <;> by_cases hb4 : f &&& 8 ≠ 0 <;>
    by_cases hb5 : f &&& 16 ≠ 0 <;> by_cases hb6 : f &&& 32 ≠ 0 <;>
    simp [hb1, hb2, hb3, hb4, hb5, hb6, List.append_assoc,
      skip_amount_exact a1 ha1, skip_amount_exact a2 ha2, skip_amount_exact a3 ha3,
      decodeScript_encode scp hsc, read_array_len_encodeVecU8 edp hed,
      skipSrc_exact lh4 4 hlh, skipSrc_exact se33 33 hse,
      skipSrc_exact edp edp.length rfl, skipSrc_exact x33 33 hx,
      skipSrc_exact sg64 64 hs]

/-- C3 amended witness: a kernel with every feature bit set (features
byte 63), one-byte amounts, a 2-byte script, a one-byte extra-data blob
and zeroed fixed fields is skipped exactly, leaving the trailing byte 9. -/
theorem C3_amended_witness :
    skip_kernelSrc ((63 : UInt8) ::
      ([0] ++ ([0] ++ (([0] ++ encodeVecU8 [1, 2]) ++ (List.replicate 4 0
        ++ (List.replicate 33 0 ++ (encodeVecU8 [7]
        ++ (List.replicate 33 0 ++ (List.replicate 64 0 ++ [9])))))))))
      = .ok () [9] :=
  C3_kernel_skip_amended 63 [0] [0] [0] [1, 2] (List.replicate 4 0) (List.replicate 33 0)
    [7] (List.replicate 33 0) (List.replicate 64 0) [9]
    (Or.inl ⟨[], 0, rfl, by decide, by decide, by decide⟩)
    (Or.inl ⟨[], 0, rfl, by decide, by decide, by decide⟩)
    (Or.inl ⟨[], 0, rfl, by decide, by decide, by decide⟩)
    (by decide) (by decide) (by decide) (by decide) (by decide) (by decide)
